import Mathlib

/-!
# Verification of the nextorch scale-transform module

Shallow embedding of `src/nextorch/utils.py` (the scale-transform module of
the nextorch repository) over the real numbers, together with theorems that
settle the specification claims about it.

Modelling conventions:
* a 1-D numpy array is a `List ℝ`; a 2-D numpy array is a `List (List ℝ)`
  (list of rows);
* an argument that may be a 1-D or a 2-D array (the shape-polymorphic `X`
  parameter of the matrix transforms) is an `NpArray`;
* Python exceptions (out-of-bounds indexing, arithmetic on `None`) are
  modelled by `Option`: a call that raises returns `none`;
* `np.log10` is `Real.logb 10`, `10**x` is the real power `(10:ℝ) ^ x`,
  `np.std` is the population standard deviation using `Real.sqrt`,
  `np.around` is round-half-to-even scaled by a power of ten.
-/

/-- A numpy array argument that may be 1-D or 2-D.  The matrix transforms in
the source inspect `len(X.shape)` and promote a 1-D input to a single-row
matrix. -/
inductive NpArray where
  | arr1d : List ℝ → NpArray
  | arr2d : List (List ℝ) → NpArray

/-- `if len(X.shape) < 2: X = np.array([X])` — promote a 1-D array to a
single-row 2-D array, leave a 2-D array unchanged. -/
def npAtLeast2d : NpArray → List (List ℝ)
  | .arr1d v => [v]
  | .arr2d m => m

/-- Number of columns of a 2-D array (`X.shape[1]`), read off the first row. -/
def ncols (m : List (List ℝ)) : ℕ := (m.headD []).length

/-- `np.transpose` of a rectangular 2-D array: row `j` of the result collects
entry `j` of every row of the input. -/
noncomputable def transpose (m : List (List ℝ)) : List (List ℝ) :=
  match m with
  | [] => []
  | r :: _ => (List.range r.length).map (fun j => m.map (fun row => row.getD j 0))

/-- The numpy column assignment `M[:, i] = v`: entry `i` of row `r` of `M`
becomes `v[r]`. -/
noncomputable def setCol (m : List (List ℝ)) (i : ℕ) (v : List ℝ) : List (List ℝ) :=
  List.zipWith (fun row x => row.set i x) m v

/-- The column loop shared by the two matrix transforms:
`for i, xi in enumerate(np.transpose(X)): M[:, i] = g i`, where `g i` is the
value computed for column `i` (`none` models an exception raised inside the
loop body). -/
noncomputable def colLoopP (g : ℕ → Option (List ℝ)) : List ℕ → List (List ℝ) → Option (List (List ℝ))
  | [], acc => some acc
  | i :: is, acc =>
    match g i with
    | none => none
    | some u => colLoopP g is (setCol acc i u)

/-- `np.log10`. -/
noncomputable def np_log10 (x : ℝ) : ℝ := Real.logb 10 x

/-- `10 ** x` on floats (real power). -/
noncomputable def np_exp10 (x : ℝ) : ℝ := (10 : ℝ) ^ x

/-- Round to the nearest integer, ties to the even integer (the rounding rule
used by `np.around`). -/
noncomputable def halfEvenRound (x : ℝ) : ℤ :=
  if Int.fract x < 1/2 then ⌊x⌋
  else if 1/2 < Int.fract x then ⌊x⌋ + 1
  else if Even ⌊x⌋ then ⌊x⌋ else ⌊x⌋ + 1

/-- `np.around(x, decimals = d)` on one entry. -/
noncomputable def np_around (d : ℤ) (x : ℝ) : ℝ :=
  (halfEvenRound (x * (10 : ℝ) ^ d) : ℝ) / (10 : ℝ) ^ d

/-- `if not decimals == None: M = np.around(M, decimals = decimals)`. -/
noncomputable def applyDecimals (decimals : Option ℤ) (m : List (List ℝ)) : List (List ℝ) :=
  match decimals with
  | none => m
  | some d => m.map (List.map (np_around d))

/-- Embedding of `unitscale_xv` (utils.py, lines 29-51): read the left and
right bound from `xi_range` (an out-of-range index raises, hence `Option`)
and return the fresh array `(xv - lb) / (rb - lb)`.  The body never writes to
its arguments: `xunit` is first bound to a deep copy of `xv` and then rebound
to the freshly allocated result. -/
noncomputable def unitscale_xv (xv xi_range : List ℝ) : Option (List ℝ) :=
  match xi_range[0]?, xi_range[1]? with
  | some lb, some rb => some (xv.map (fun x => (x - lb) / (rb - lb)))
  | _, _ => none

/-- Embedding of `inverse_unitscale_xv` (utils.py, lines 109-131):
`lb + (rb - lb) * xv`. -/
noncomputable def inverse_unitscale_xv (xv xi_range : List ℝ) : Option (List ℝ) :=
  match xi_range[0]?, xi_range[1]? with
  | some lb, some rb => some (xv.map (fun x => lb + (rb - lb) * x))
  | _, _ => none

/-- Embedding of `unitscale_X` (utils.py, lines 53-106).  Promotes a 1-D
input to a single-row matrix; replaces an empty `X_range` by `[[0,1]] * dim`
and otherwise transposes it; replaces empty `log_flags` by `[False] * dim`;
then fills a zero matrix column by column with
`np.log10(unitscale_xv(xi, X_range[i]))` when `log_flags[i]` holds and
`unitscale_xv(xi, X_range[i])` otherwise, and finally applies the optional
rounding.  A failed index access anywhere gives `none`.  The loop body
(utils.py lines 96-100) is the named function `unitscale_col`. -/
noncomputable def unitscale_col (lf : List Bool) (Xr cols : List (List ℝ)) (i : ℕ) :
    Option (List ℝ) :=
  match lf[i]? with
  | none => none
  | some flag =>
    match Xr[i]? with
    | none => none
    | some rng =>
      match unitscale_xv (cols.getD i []) rng with
      | none => none
      | some u => some (if flag then u.map np_log10 else u)

/-- Embedding of `unitscale_X` proper; see `unitscale_col` for the loop body. -/
noncomputable def unitscale_X (X : NpArray) (X_range : List (List ℝ))
    (log_flags : List Bool) (decimals : Option ℤ) : Option (List (List ℝ)) :=
  let X2 := npAtLeast2d X
  let dim := ncols X2
  let Xr := match X_range with
    | [] => List.replicate dim ([0, 1] : List ℝ)
    | _ => transpose X_range
  let lf := match log_flags with
    | [] => List.replicate dim false
    | _ => log_flags
  let cols := transpose X2
  match colLoopP (unitscale_col lf Xr cols) (List.range cols.length)
      (List.replicate X2.length (List.replicate dim (0 : ℝ))) with
  | none => none
  | some Xunit => some (applyDecimals decimals Xunit)

/-- Embedding of `inverse_unitscale_X` (utils.py, lines 134-185).  Identical
structure to `unitscale_X`, except that the column value for a log-flagged
column is `10 ** (inverse_unitscale_xv(xi, X_range[i]))` — the source
exponentiates the result of the vector inverse transform (utils.py lines
175-179, the loop body being the named function `inverse_unitscale_col`). -/
noncomputable def inverse_unitscale_col (lf : List Bool) (Xr cols : List (List ℝ))
    (i : ℕ) : Option (List ℝ) :=
  match lf[i]? with
  | none => none
  | some flag =>
    match Xr[i]? with
    | none => none
    | some rng =>
      match inverse_unitscale_xv (cols.getD i []) rng with
      | none => none
      | some u => some (if flag then u.map np_exp10 else u)

/-- Embedding of `inverse_unitscale_X` proper; see `inverse_unitscale_col`
for the loop body. -/
noncomputable def inverse_unitscale_X (X : NpArray) (X_range : List (List ℝ))
    (log_flags : List Bool) (decimals : Option ℤ) : Option (List (List ℝ)) :=
  let X2 := npAtLeast2d X
  let dim := ncols X2
  let Xr := match X_range with
    | [] => List.replicate dim ([0, 1] : List ℝ)
    | _ => transpose X_range
  let lf := match log_flags with
    | [] => List.replicate dim false
    | _ => log_flags
  let cols := transpose X2
  match colLoopP (inverse_unitscale_col lf Xr cols) (List.range cols.length)
      (List.replicate X2.length (List.replicate dim (0 : ℝ))) with
  | none => none
  | some Xreal => some (applyDecimals decimals Xreal)

/-- `X.mean(axis = 0)`: per-column mean over the sample (row) axis. -/
noncomputable def npMean (X : List (List ℝ)) : List ℝ :=
  (transpose X).map (fun col => col.sum / X.length)

/-- `X.std(axis = 0)`: per-column population standard deviation (numpy
default `ddof = 0`). -/
noncomputable def npStd (X : List (List ℝ)) : List ℝ :=
  (transpose X).map (fun col =>
    Real.sqrt (((col.map (fun x => (x - col.sum / X.length) ^ 2)).sum) / X.length))

/-- `(X - m) / s` with row-wise broadcasting of the per-column vectors. -/
noncomputable def rowsSubDiv (X : List (List ℝ)) (m s : List ℝ) : List (List ℝ) :=
  X.map (fun row => List.zipWith (fun a b => a / b) (List.zipWith (fun a b => a - b) row m) s)

/-- Embedding of `standardize_X` (utils.py, lines 188-219).  The source only
computes the statistics when `X_mean is None`, and in that branch overwrites
`X_std` with the computed standard deviation; when `X_mean` is supplied and
`X_std` is not, the division `(X - X_mean) / None` raises, modelled by
`none`. -/
noncomputable def standardize_X (X : List (List ℝ))
    (X_mean X_std : Option (List ℝ)) : Option (List (List ℝ)) :=
  let ms : List ℝ × Option (List ℝ) :=
    match X_mean with
    | none => (npMean X, some (npStd X))
    | some m => (m, X_std)
  match ms.2 with
  | none => none
  | some s => some (rowsSubDiv X ms.1 s)

/-- Embedding of `inverse_standardize_X` (utils.py, lines 223-255):
`X * X_std + X_mean` element-wise with row-wise broadcasting.  The source
branches on tensor-vs-array input but both branches compute this same
expression. -/
noncomputable def inverse_standardize_X (X : List (List ℝ))
    (X_mean X_std : List ℝ) : List (List ℝ) :=
  X.map (fun row =>
    List.zipWith (fun a b => a + b) (List.zipWith (fun a b => a * b) row X_std) X_mean)

/-- `np.linspace(0, 1, n)`: `n` evenly spaced values from 0 to 1 (the single
value 0 when `n = 1`). -/
noncomputable def linspace01 (n : ℕ) : List ℝ :=
  if n = 1 then [0]
  else (List.range n).map (fun i : ℕ => (i : ℝ) / ((n : ℝ) - 1))

/-- Embedding of `create_2D_mesh` (utils.py, lines 258-284): build the
`meshgrid` of `np.linspace(0,1,n)` with itself using Cartesian `xy` indexing
(`X1[i,j] = x1[j]`, `X2[i,j] = x2[i]`), then flatten it by the double loop
`for i in range(nx1): for j in range(nx2): append [X1[i,j], X2[i,j]]`. -/
noncomputable def create_2D_mesh (mesh_size : ℕ) :
    List (List ℝ) × List (List ℝ) × List (List ℝ) :=
  let nx1 := mesh_size
  let nx2 := mesh_size
  let x1 := linspace01 nx1
  let x2 := linspace01 nx2
  let X1 := x2.map (fun _ => x1)
  let X2 := x2.map (fun v => x1.map (fun _ => v))
  let X_test := (List.range nx1).flatMap (fun i =>
    (List.range nx2).map (fun j =>
      [(X1.getD i []).getD j 0, (X2.getD i []).getD j 0]))
  (X_test, X1, X2)

/-- Rectangularity of a list-of-rows matrix: every row has the length of the
first row. -/
def Rect (m : List (List ℝ)) : Prop := ∀ row ∈ m, row.length = ncols m

/-! ## List helper lemmas -/

lemma getD_set_ne {α : Type} (l : List α) {i j : ℕ} (x d : α) (h : i ≠ j) :
    (l.set i x).getD j d = l.getD j d := by
  simp [List.getD_eq_getElem?_getD, List.getElem?_set_ne h]

lemma getD_set_self {α : Type} (l : List α) {i : ℕ} (x d : α) (h : i < l.length) :
    (l.set i x).getD i d = x := by
  simp [List.getD_eq_getElem?_getD, List.getElem?_set_self h]

lemma getD_zipWith {α β γ : Type} (f : α → β → γ) (as : List α) (bs : List β)
    (r : ℕ) (da : α) (db : β) (dc : γ) (ha : r < as.length) (hb : r < bs.length) :
    (List.zipWith f as bs).getD r dc = f (as.getD r da) (bs.getD r db) := by
  have hl : r < (List.zipWith f as bs).length := by
    rw [List.length_zipWith]; omega
  rw [List.getD_eq_getElem _ _ hl, List.getD_eq_getElem _ _ ha, List.getD_eq_getElem _ _ hb,
    List.getElem_zipWith]

lemma getD_map {α β : Type} (f : α → β) (l : List α) (i : ℕ) (da : α) (db : β)
    (h : i < l.length) : (l.map f).getD i db = f (l.getD i da) := by
  have hm : i < (l.map f).length := by simpa using h
  rw [List.getD_eq_getElem _ _ hm, List.getD_eq_getElem _ _ h, List.getElem_map]

lemma length_transpose (r : List ℝ) (t : List (List ℝ)) :
    (transpose (r :: t)).length = r.length := by
  simp [transpose]

lemma row_length_transpose (m : List (List ℝ)) :
    ∀ row ∈ transpose m, row.length = m.length := by
  intro row hrow
  cases m with
  | nil => simp [transpose] at hrow
  | cons r t =>
    simp only [transpose, List.mem_map] at hrow
    obtain ⟨j, -, rfl⟩ := hrow
    simp

lemma getD_transpose (r : List ℝ) (t : List (List ℝ)) (i : ℕ) (hi : i < r.length) :
    (transpose (r :: t)).getD i [] = (r :: t).map (fun row => row.getD i 0) := by
  simp only [transpose]
  rw [getD_map _ _ i 0 [] (by simpa using hi)]
  congr 1
  rw [List.getD_eq_getElem _ _ (by simpa using hi), List.getElem_range]

lemma cols_getD_length (X2 : List (List ℝ)) (i : ℕ) (hi : i < (transpose X2).length) :
    ((transpose X2).getD i []).length = X2.length := by
  have hmem : (transpose X2).getD i [] ∈ transpose X2 := by
    rw [List.getD_eq_getElem _ _ hi]
    exact List.getElem_mem _
  exact row_length_transpose X2 _ hmem

lemma unitscale_xv_length (xv rng w : List ℝ) (h : unitscale_xv xv rng = some w) :
    w.length = xv.length := by
  rcases h0 : rng[0]? with _ | lb <;> rcases h1 : rng[1]? with _ | rb <;>
    simp [unitscale_xv, h0, h1] at h
  subst h; simp

lemma inverse_unitscale_xv_length (xv rng w : List ℝ)
    (h : inverse_unitscale_xv xv rng = some w) : w.length = xv.length := by
  rcases h0 : rng[0]? with _ | lb <;> rcases h1 : rng[1]? with _ | rb <;>
    simp [inverse_unitscale_xv, h0, h1] at h
  subst h; simp

/-! ## Column-loop lemmas -/

lemma colLoopP_shape {g : ℕ → Option (List ℝ)} {R C : ℕ} (l : List ℕ)
    (acc M : List (List ℝ)) (h : colLoopP g l acc = some M)
    (hg : ∀ i ∈ l, ∀ u, g i = some u → u.length = R)
    (hlen : acc.length = R) (hrow : ∀ r2 < R, (acc.getD r2 []).length = C) :
    M.length = R ∧ ∀ r2 < R, (M.getD r2 []).length = C := by
  induction l generalizing acc with
  | nil =>
    simp only [colLoopP] at h
    cases h
    exact ⟨hlen, hrow⟩
  | cons i is ih =>
    simp only [colLoopP] at h
    cases hgi : g i with
    | none => rw [hgi] at h; cases h
    | some u =>
      rw [hgi] at h
      have hu : u.length = R := hg i (by simp) u hgi
      have hlen2 : (setCol acc i u).length = R := by
        simp [setCol, List.length_zipWith, hlen, hu]
      have hrow2 : ∀ r2 < R, ((setCol acc i u).getD r2 []).length = C := by
        intro r2 hr2
        rw [setCol, getD_zipWith _ acc u r2 [] 0 [] (hlen ▸ hr2) (hu ▸ hr2),
          List.length_set]
        exact hrow r2 hr2
      exact ih (setCol acc i u) h (fun j hj u2 h2 => hg j (by simp [hj]) u2 h2) hlen2 hrow2

lemma colLoopP_getD_not_mem {g : ℕ → Option (List ℝ)} {R : ℕ} (j : ℕ) (l : List ℕ)
    (acc M : List (List ℝ)) (h : colLoopP g l acc = some M) (hj : j ∉ l)
    (hg : ∀ i ∈ l, ∀ u, g i = some u → u.length = R)
    (hlen : acc.length = R) (r : ℕ) (hr : r < R) :
    (M.getD r []).getD j 0 = (acc.getD r []).getD j 0 := by
  induction l generalizing acc with
  | nil =>
    simp only [colLoopP] at h
    cases h
    rfl
  | cons i is ih =>
    simp only [colLoopP] at h
    cases hgi : g i with
    | none => rw [hgi] at h; cases h
    | some u =>
      rw [hgi] at h
      have hu : u.length = R := hg i (by simp) u hgi
      have hlen2 : (setCol acc i u).length = R := by
        simp [setCol, List.length_zipWith, hlen, hu]
      have hji : i ≠ j := fun e => hj (e ▸ List.mem_cons_self i is)
      have step := ih (setCol acc i u) h (fun e => hj (List.mem_cons_of_mem i e))
        (fun k hk u2 h2 => hg k (by simp [hk]) u2 h2) hlen2
      rw [step, setCol, getD_zipWith _ acc u r [] 0 [] (hlen ▸ hr) (hu ▸ hr),
        getD_set_ne _ _ _ hji]

lemma colLoopP_getD_mem {g : ℕ → Option (List ℝ)} {R C : ℕ} (j : ℕ) (l : List ℕ)
    (acc M : List (List ℝ)) (h : colLoopP g l acc = some M) (hnd : l.Nodup)
    (hj : j ∈ l)
    (hg : ∀ i ∈ l, ∀ u, g i = some u → u.length = R)
    (hlen : acc.length = R) (hrow : ∀ r2 < R, (acc.getD r2 []).length = C)
    (hjC : j < C) (r : ℕ) (hr : r < R) :
    ∃ u, g j = some u ∧ (M.getD r []).getD j 0 = u.getD r 0 := by
  induction l generalizing acc with
  | nil => cases hj
  | cons i is ih =>
    simp only [colLoopP] at h
    cases hgi : g i with
    | none => rw [hgi] at h; cases h
    | some u =>
      rw [hgi] at h
      have hu : u.length = R := hg i (by simp) u hgi
      have hlen2 : (setCol acc i u).length = R := by
        simp [setCol, List.length_zipWith, hlen, hu]
      have hrow2 : ∀ r2 < R, ((setCol acc i u).getD r2 []).length = C := by
        intro r2 hr2
        rw [setCol, getD_zipWith _ acc u r2 [] 0 [] (hlen ▸ hr2) (hu ▸ hr2),
          List.length_set]
        exact hrow r2 hr2
      rcases List.mem_cons.mp hj with hji | hjis
      · subst hji
        refine ⟨u, hgi, ?_⟩
        have hnotin : j ∉ is := (List.nodup_cons.mp hnd).1
        have hpers := colLoopP_getD_not_mem j is (setCol acc j u) M h hnotin
          (fun k hk u2 h2 => hg k (by simp [hk]) u2 h2) hlen2 r hr
        rw [hpers, setCol, getD_zipWith _ acc u r [] 0 [] (hlen ▸ hr) (hu ▸ hr),
          getD_set_self _ _ _ (by rw [hrow r hr]; exact hjC)]
      · exact ih (setCol acc i u) h (List.nodup_cons.mp hnd).2 hjis
          (fun k hk u2 h2 => hg k (by simp [hk]) u2 h2) hlen2 hrow2

lemma applyDecimals_length (dec : Option ℤ) (m : List (List ℝ)) :
    (applyDecimals dec m).length = m.length := by
  cases dec <;> simp [applyDecimals]

lemma applyDecimals_getD_length (dec : Option ℤ) (m : List (List ℝ)) (r : ℕ)
    (h : r < m.length) :
    ((applyDecimals dec m).getD r []).length = (m.getD r []).length := by
  cases dec with
  | none => rfl
  | some d =>
    simp only [applyDecimals]
    rw [getD_map _ _ r [] [] h]
    simp

/-! ## Claim C4: linear round-trip of the vector transforms -/

/-- C4. Round-trip identity (linear, vector form): for every real vector `x`
and every range `(lo, hi)` with `lo ≠ hi`, feeding the output of
`unitscale_xv` back through `inverse_unitscale_xv` with the same range
returns `x` exactly. -/
theorem C4_roundtrip_linear (x : List ℝ) (lo hi : ℝ) (h : lo ≠ hi) :
    (unitscale_xv x [lo, hi]).bind (fun u => inverse_unitscale_xv u [lo, hi]) = some x := by
  have hne : hi - lo ≠ 0 := sub_ne_zero.mpr (Ne.symm h)
  simp only [unitscale_xv, inverse_unitscale_xv, List.getElem?_cons_zero,
    List.getElem?_cons_succ, Option.bind_eq_bind, Option.some_bind, List.map_map]
  have hf : ((fun y => lo + (hi - lo) * y) ∘ fun a => (a - lo) / (hi - lo)) = id := by
    funext a
    simp only [Function.comp_apply, id_eq]
    field_simp
  rw [hf, List.map_id]

/-- Witness for C4 at `x = [3]`, range `(1, 5)`. -/
theorem C4_roundtrip_linear_witness :
    (unitscale_xv [3] [1, 5]).bind (fun u => inverse_unitscale_xv u [1, 5]) = some [3] :=
  C4_roundtrip_linear [3] 1 5 (by norm_num)

/-! ## Claim C3: the spec example scenario -/

/-- C3 counterexample: the spec example `unitscale_X([50], X_range=[[0,100]])`
does not succeed on the code.  `unitscale_X` transposes the supplied
`X_range`, turning `[[0,100]]` into `[[0],[100]]`, and the range lookup
`xi_range[1]` then raises an index error (modelled by `none`), so the call
does not return `[0.5]`. -/
theorem C3_cex :
    unitscale_X (.arr1d [50]) [[0, 100]] [] none = none ∧
      unitscale_X (.arr1d [50]) [[0, 100]] [] none ≠ some [[0.5]] := by
  constructor
  · simp [unitscale_X, unitscale_col, npAtLeast2d, ncols, transpose, colLoopP,
      unitscale_xv, List.range_succ]
  · simp [unitscale_X, unitscale_col, npAtLeast2d, ncols, transpose, colLoopP,
      unitscale_xv, List.range_succ]

/-- C3 amended: with the per-column range pairs supplied in the transposed
convention the code expects (first row all lower bounds, second row all upper
bounds), the forward matrix transform on `[50]` yields `[[0.5]]`, and
`inverse_unitscale_xv([0.5], [0,100])` yields `[50]`. -/
theorem C3_example_amended :
    unitscale_X (.arr1d [50]) [[0], [100]] [] none = some [[0.5]] ∧
      inverse_unitscale_xv [0.5] [0, 100] = some [50] := by
  constructor
  · simp only [unitscale_X, unitscale_col, npAtLeast2d, ncols, transpose, colLoopP,
      unitscale_xv, applyDecimals, setCol, List.range_succ]
    norm_num
  · simp only [inverse_unitscale_xv, List.getElem?_cons_zero, List.getElem?_cons_succ]
    norm_num

/-! ## Claim C8: shape preservation of the matrix transforms -/

lemma unitscale_col_length (lf : List Bool) (Xr cols : List (List ℝ)) (i : ℕ)
    (u : List ℝ) (h : unitscale_col lf Xr cols i = some u) :
    u.length = (cols.getD i []).length := by
  unfold unitscale_col at h
  rcases h0 : lf[i]? with _ | flag
  · rw [h0] at h; cases h
  rw [h0] at h
  dsimp only at h
  rcases h1 : Xr[i]? with _ | rng
  · rw [h1] at h; cases h
  rw [h1] at h
  dsimp only at h
  rcases h2 : unitscale_xv (cols.getD i []) rng with _ | w
  · rw [h2] at h; cases h
  rw [h2] at h
  dsimp only at h
  cases h
  have := unitscale_xv_length _ _ _ h2
  cases flag <;> simpa using this

lemma inverse_unitscale_col_length (lf : List Bool) (Xr cols : List (List ℝ)) (i : ℕ)
    (u : List ℝ) (h : inverse_unitscale_col lf Xr cols i = some u) :
    u.length = (cols.getD i []).length := by
  unfold inverse_unitscale_col at h
  rcases h0 : lf[i]? with _ | flag
  · rw [h0] at h; cases h
  rw [h0] at h
  dsimp only at h
  rcases h1 : Xr[i]? with _ | rng
  · rw [h1] at h; cases h
  rw [h1] at h
  dsimp only at h
  rcases h2 : inverse_unitscale_xv (cols.getD i []) rng with _ | w
  · rw [h2] at h; cases h
  rw [h2] at h
  dsimp only at h
  cases h
  have := inverse_unitscale_xv_length _ _ _ h2
  cases flag <;> simpa using this

/-- Shared result-shape lemma for the two matrix transforms: whatever the
per-column function, a successful run of the column loop started on
`np.zeros((rows, dim))` followed by the optional rounding returns a matrix of
`X2.length` rows, each of length `ncols X2`. -/
lemma loopResult_shape (g : ℕ → Option (List ℝ)) (X2 : List (List ℝ))
    (dec : Option ℤ) (M : List (List ℝ))
    (hg : ∀ i ∈ List.range (transpose X2).length, ∀ u, g i = some u →
      u.length = X2.length)
    (h : (match colLoopP g (List.range (transpose X2).length)
        (List.replicate X2.length (List.replicate (ncols X2) (0 : ℝ))) with
      | none => none
      | some Xu => some (applyDecimals dec Xu)) = some M) :
    M.length = X2.length ∧ ∀ row ∈ M, row.length = ncols X2 := by
  cases hc : colLoopP g (List.range (transpose X2).length)
      (List.replicate X2.length (List.replicate (ncols X2) (0 : ℝ))) with
  | none => rw [hc] at h; cases h
  | some Xu =>
    rw [hc] at h
    cases h
    have hshape := colLoopP_shape (R := X2.length) (C := ncols X2) _ _ _ hc hg
      (List.length_replicate _ _) (by
        intro r2 hr2
        rw [List.getD_eq_getElem _ _ (by simpa using hr2), List.getElem_replicate]
        simp)
    refine ⟨by rw [applyDecimals_length, hshape.1], ?_⟩
    intro row hrow
    rcases List.mem_iff_getElem.mp hrow with ⟨n, hn, rfl⟩
    have hn2 : n < Xu.length := by
      have := applyDecimals_length dec Xu
      omega
    rw [← List.getD_eq_getElem _ [] hn, applyDecimals_getD_length dec Xu n hn2]
    exact hshape.2 n (hshape.1 ▸ hn2)

lemma unitscale_X_shape (X2 : List (List ℝ)) (rng : List (List ℝ))
    (flags : List Bool) (dec : Option ℤ) (M : List (List ℝ))
    (h : unitscale_X (.arr2d X2) rng flags dec = some M) :
    M.length = X2.length ∧ ∀ row ∈ M, row.length = ncols X2 := by
  simp only [unitscale_X, npAtLeast2d] at h
  refine loopResult_shape _ X2 dec M ?_ h
  intro i hi u hu
  rw [unitscale_col_length _ _ _ _ _ hu,
    cols_getD_length X2 i (by simpa using hi)]

lemma inverse_unitscale_X_shape (X2 : List (List ℝ)) (rng : List (List ℝ))
    (flags : List Bool) (dec : Option ℤ) (M : List (List ℝ))
    (h : inverse_unitscale_X (.arr2d X2) rng flags dec = some M) :
    M.length = X2.length ∧ ∀ row ∈ M, row.length = ncols X2 := by
  simp only [inverse_unitscale_X, npAtLeast2d] at h
  refine loopResult_shape _ X2 dec M ?_ h
  intro i hi u hu
  rw [inverse_unitscale_col_length _ _ _ _ _ hu,
    cols_getD_length X2 i (by simpa using hi)]

lemma unitscale_X_shape_1d (v : List ℝ) (rng : List (List ℝ)) (flags : List Bool)
    (dec : Option ℤ) (M : List (List ℝ))
    (h : unitscale_X (.arr1d v) rng flags dec = some M) :
    M.length = 1 ∧ ∀ row ∈ M, row.length = v.length := by
  have h2 : unitscale_X (.arr2d [v]) rng flags dec = some M := h
  have := unitscale_X_shape [v] rng flags dec M h2
  simpa [ncols] using this

lemma inverse_unitscale_X_shape_1d (v : List ℝ) (rng : List (List ℝ))
    (flags : List Bool) (dec : Option ℤ) (M : List (List ℝ))
    (h : inverse_unitscale_X (.arr1d v) rng flags dec = some M) :
    M.length = 1 ∧ ∀ row ∈ M, row.length = v.length := by
  have h2 : inverse_unitscale_X (.arr2d [v]) rng flags dec = some M := h
  have := inverse_unitscale_X_shape [v] rng flags dec M h2
  simpa [ncols] using this

/-- C8. Shape preservation: a successful run of `unitscale_X` or
`inverse_unitscale_X` on a 2-D input returns a matrix with the same number of
rows and the same per-row length (column count) as the input, and on a 1-D
input of length `d` returns a matrix of one row of length `d`. -/
theorem C8_shape_preservation :
    (∀ (X : List (List ℝ)) (rng : List (List ℝ)) (flags : List Bool)
        (dec : Option ℤ) (M : List (List ℝ)),
        unitscale_X (.arr2d X) rng flags dec = some M →
        M.length = X.length ∧ ∀ row ∈ M, row.length = ncols X) ∧
    (∀ X rng flags dec M, inverse_unitscale_X (.arr2d X) rng flags dec = some M →
        M.length = X.length ∧ ∀ row ∈ M, row.length = ncols X) ∧
    (∀ (v : List ℝ) rng flags dec M, unitscale_X (.arr1d v) rng flags dec = some M →
        M.length = 1 ∧ ∀ row ∈ M, row.length = v.length) ∧
    (∀ v rng flags dec M, inverse_unitscale_X (.arr1d v) rng flags dec = some M →
        M.length = 1 ∧ ∀ row ∈ M, row.length = v.length) :=
  ⟨unitscale_X_shape, inverse_unitscale_X_shape,
    unitscale_X_shape_1d, inverse_unitscale_X_shape_1d⟩

/-- Witness for C8: the 2-D conjunct applied at `X = [[50]]` with the default
range, whose output `[[50]]` indeed has one row of length one. -/
theorem C8_shape_preservation_witness :
    ([[(50 : ℝ)]] : List (List ℝ)).length = ([[(50 : ℝ)]] : List (List ℝ)).length ∧
      ∀ row ∈ ([[(50 : ℝ)]] : List (List ℝ)), row.length = ncols [[(50 : ℝ)]] :=
  C8_shape_preservation.1 [[50]] [] [] none [[50]] (by
    simp only [unitscale_X, unitscale_col, npAtLeast2d, ncols, transpose, colLoopP,
      unitscale_xv, applyDecimals, setCol, List.range_succ]
    norm_num)

/-! ## Claim C10: the transposed range-argument convention -/

lemma colLoopP_ne_none {g : ℕ → Option (List ℝ)} (l : List ℕ) (acc : List (List ℝ))
    (h : ∀ i ∈ l, g i ≠ none) : colLoopP g l acc ≠ none := by
  induction l generalizing acc with
  | nil => simp [colLoopP]
  | cons i is ih =>
    simp only [colLoopP]
    cases hgi : g i with
    | none => exact absurd hgi (h i (by simp))
    | some u => exact ih _ (fun j hj => h j (by simp [hj]))

lemma transpose_pair_getElem (lbs ubs : List ℝ) (i : ℕ) (hi : i < lbs.length) :
    (transpose [lbs, ubs])[i]? = some [lbs.getD i 0, ubs.getD i 0] := by
  simp only [transpose]
  rw [List.getElem?_map, List.getElem?_range (by simpa using hi)]
  simp

lemma unitscale_col_default (C : ℕ) (lbs ubs : List ℝ) (cols : List (List ℝ))
    (hl : lbs.length = C) (i : ℕ) (hi : i < C) :
    unitscale_col (List.replicate C false) (transpose [lbs, ubs]) cols i =
      some ((cols.getD i []).map (fun x =>
        (x - lbs.getD i 0) / (ubs.getD i 0 - lbs.getD i 0))) := by
  have h0 : (List.replicate C false)[i]? = some false := by
    simp [List.getElem?_replicate, hi]
  have h1 := transpose_pair_getElem lbs ubs i (by omega)
  simp [unitscale_col, h0, h1, unitscale_xv]

lemma inverse_unitscale_col_default (C : ℕ) (lbs ubs : List ℝ) (cols : List (List ℝ))
    (hl : lbs.length = C) (i : ℕ) (hi : i < C) :
    inverse_unitscale_col (List.replicate C false) (transpose [lbs, ubs]) cols i =
      some ((cols.getD i []).map (fun x =>
        lbs.getD i 0 + (ubs.getD i 0 - lbs.getD i 0) * x)) := by
  have h0 : (List.replicate C false)[i]? = some false := by
    simp [List.getElem?_replicate, hi]
  have h1 := transpose_pair_getElem lbs ubs i (by omega)
  simp [inverse_unitscale_col, h0, h1, inverse_unitscale_xv]

/-- C10. Implicit range-argument convention: a non-empty `X_range` supplied to
`unitscale_X` / `inverse_unitscale_X` is transposed before use, so when it is
given as `[lbs, ubs]` (first row all lower bounds, second row all upper
bounds) both transforms succeed and the range applied to data column `i` is
the pair `(lbs[i], ubs[i])`. -/
theorem C10_range_convention (X : List (List ℝ)) (lbs ubs : List ℝ)
    (hne : X ≠ []) (hl : lbs.length = ncols X) (hu : ubs.length = ncols X) :
    ∃ M Minv, unitscale_X (.arr2d X) [lbs, ubs] [] none = some M ∧
      inverse_unitscale_X (.arr2d X) [lbs, ubs] [] none = some Minv ∧
      ∀ r < X.length, ∀ i < ncols X,
        (M.getD r []).getD i 0 =
          ((X.getD r []).getD i 0 - lbs.getD i 0) / (ubs.getD i 0 - lbs.getD i 0) ∧
        (Minv.getD r []).getD i 0 =
          lbs.getD i 0 + (ubs.getD i 0 - lbs.getD i 0) * (X.getD r []).getD i 0 := by
  obtain ⟨x0, xt, rfl⟩ : ∃ x0 xt, X = x0 :: xt := by
    cases X with
    | nil => exact absurd rfl hne
    | cons a t => exact ⟨a, t, rfl⟩
  have hclen : (transpose (x0 :: xt)).length = x0.length := length_transpose x0 xt
  have hgUsome : ∀ i ∈ List.range (transpose (x0 :: xt)).length,
      unitscale_col (List.replicate (ncols (x0 :: xt)) false) (transpose [lbs, ubs])
        (transpose (x0 :: xt)) i ≠ none := by
    intro i hi
    have hi2 : i < x0.length := hclen ▸ List.mem_range.mp hi
    rw [unitscale_col_default (ncols (x0 :: xt)) lbs ubs _ hl i hi2]
    simp
  have hgIsome : ∀ i ∈ List.range (transpose (x0 :: xt)).length,
      inverse_unitscale_col (List.replicate (ncols (x0 :: xt)) false) (transpose [lbs, ubs])
        (transpose (x0 :: xt)) i ≠ none := by
    intro i hi
    have hi2 : i < x0.length := hclen ▸ List.mem_range.mp hi
    rw [inverse_unitscale_col_default (ncols (x0 :: xt)) lbs ubs _ hl i hi2]
    simp
  obtain ⟨Xu, hXu⟩ := Option.ne_none_iff_exists.mp (colLoopP_ne_none _
    (List.replicate (x0 :: xt).length (List.replicate (ncols (x0 :: xt)) (0 : ℝ))) hgUsome)
  obtain ⟨Xi, hXi⟩ := Option.ne_none_iff_exists.mp (colLoopP_ne_none _
    (List.replicate (x0 :: xt).length (List.replicate (ncols (x0 :: xt)) (0 : ℝ))) hgIsome)
  have hgUlen : ∀ i ∈ List.range (transpose (x0 :: xt)).length, ∀ u,
      unitscale_col (List.replicate (ncols (x0 :: xt)) false) (transpose [lbs, ubs])
        (transpose (x0 :: xt)) i = some u → u.length = (x0 :: xt).length := by
    intro i hi u hu
    rw [unitscale_col_length _ _ _ _ _ hu,
      cols_getD_length (x0 :: xt) i (List.mem_range.mp hi)]
  have hgIlen : ∀ i ∈ List.range (transpose (x0 :: xt)).length, ∀ u,
      inverse_unitscale_col (List.replicate (ncols (x0 :: xt)) false) (transpose [lbs, ubs])
        (transpose (x0 :: xt)) i = some u → u.length = (x0 :: xt).length := by
    intro i hi u hu
    rw [inverse_unitscale_col_length _ _ _ _ _ hu,
      cols_getD_length (x0 :: xt) i (List.mem_range.mp hi)]
  have hrows : ∀ r2 < (x0 :: xt).length,
      ((List.replicate (x0 :: xt).length
        (List.replicate (ncols (x0 :: xt)) (0 : ℝ))).getD r2 []).length
        = ncols (x0 :: xt) := by
    intro r2 hr2
    rw [List.getD_eq_getElem _ _ (by simpa using hr2), List.getElem_replicate]
    simp
  refine ⟨Xu, Xi, ?_, ?_, ?_⟩
  · simp only [unitscale_X, npAtLeast2d]
    rw [← hXu]
    rfl
  · simp only [inverse_unitscale_X, npAtLeast2d]
    rw [← hXi]
    rfl
  · intro r hr i hi
    have himem : i ∈ List.range (transpose (x0 :: xt)).length := by
      rw [List.mem_range, hclen]; exact hi
    have hcollen : ((transpose (x0 :: xt)).getD i []).length = (x0 :: xt).length :=
      cols_getD_length (x0 :: xt) i (List.mem_range.mp himem)
    have hcolr : ((transpose (x0 :: xt)).getD i []).getD r 0 =
        ((x0 :: xt).getD r []).getD i 0 := by
      rw [getD_transpose x0 xt i hi, getD_map _ _ r [] 0 hr]
    constructor
    · obtain ⟨u, hgu, hentry⟩ := colLoopP_getD_mem (C := ncols (x0 :: xt)) i _ _ _
        hXu.symm (List.nodup_range _) himem hgUlen (List.length_replicate _ _) hrows hi r hr
      rw [unitscale_col_default (ncols (x0 :: xt)) lbs ubs _ hl i hi] at hgu
      cases hgu
      rw [hentry, getD_map _ _ r 0 0 (by rw [hcollen]; exact hr), hcolr]
    · obtain ⟨u, hgu, hentry⟩ := colLoopP_getD_mem (C := ncols (x0 :: xt)) i _ _ _
        hXi.symm (List.nodup_range _) himem hgIlen (List.length_replicate _ _) hrows hi r hr
      rw [inverse_unitscale_col_default (ncols (x0 :: xt)) lbs ubs _ hl i hi] at hgu
      cases hgu
      rw [hentry, getD_map _ _ r 0 0 (by rw [hcollen]; exact hr), hcolr]

/-- Witness for C10 at `X = [[50]]`, lower bounds `[0]`, upper bounds `[100]`. -/
theorem C10_range_convention_witness :
    ∃ M Minv, unitscale_X (.arr2d [[50]]) [[0], [100]] [] none = some M ∧
      inverse_unitscale_X (.arr2d [[50]]) [[0], [100]] [] none = some Minv ∧
      ∀ r < ([[(50 : ℝ)]] : List (List ℝ)).length, ∀ i < ncols [[(50 : ℝ)]],
        (M.getD r []).getD i 0 =
          ((([[(50 : ℝ)]] : List (List ℝ)).getD r []).getD i 0 - ([(0 : ℝ)]).getD i 0) /
            (([(100 : ℝ)]).getD i 0 - ([(0 : ℝ)]).getD i 0) ∧
        (Minv.getD r []).getD i 0 =
          ([(0 : ℝ)]).getD i 0 + (([(100 : ℝ)]).getD i 0 - ([(0 : ℝ)]).getD i 0) *
            (([[(50 : ℝ)]] : List (List ℝ)).getD r []).getD i 0 :=
  C10_range_convention [[50]] [0] [100] (by simp) (by simp [ncols]) (by simp [ncols])

/-! ## Claim C5: standardization round-trip -/

lemma npMean_length (x0 : List ℝ) (xt : List (List ℝ)) :
    (npMean (x0 :: xt)).length = x0.length := by
  simp [npMean, transpose]

lemma npStd_length (x0 : List ℝ) (xt : List (List ℝ)) :
    (npStd (x0 :: xt)).length = x0.length := by
  simp [npStd, transpose]

lemma std_roundtrip_row (r : List ℝ) : ∀ (m s : List ℝ), r.length ≤ m.length →
    r.length ≤ s.length → (∀ x ∈ s, x ≠ 0) →
    List.zipWith (fun a b => a + b)
      (List.zipWith (fun a b => a * b)
        (List.zipWith (fun a b => a / b) (List.zipWith (fun a b => a - b) r m) s) s) m
      = r := by
  induction r with
  | nil => intro m s _ _ _; simp
  | cons x rt ih =>
    intro m s hm hs hsne
    cases m with
    | nil => simp at hm
    | cons a mt =>
      cases s with
      | nil => simp at hs
      | cons b st =>
        simp only [List.zipWith_cons_cons]
        have hb : b ≠ 0 := hsne b (by simp)
        congr 1
        · rw [div_mul_cancel₀ _ hb]; ring
        · exact ih mt st (by simpa using hm) (by simpa using hs)
            (fun y hy => hsne y (by simp [hy]))

/-- C5. Standardization round-trip: for every non-empty rectangular matrix
`X` whose per-column population standard deviation is nonzero,
`inverse_standardize_X (standardize_X X) (npMean X) (npStd X)` returns `X`
exactly, where `npMean` and `npStd` are the per-column population statistics
along the sample axis. -/
theorem C5_standardize_roundtrip (X : List (List ℝ)) (hne : X ≠ []) (hrect : Rect X)
    (hstd : ∀ s ∈ npStd X, s ≠ 0) :
    (standardize_X X none none).map
      (fun M => inverse_standardize_X M (npMean X) (npStd X)) = some X := by
  obtain ⟨x0, xt, rfl⟩ : ∃ x0 xt, X = x0 :: xt := by
    cases X with
    | nil => exact absurd rfl hne
    | cons a t => exact ⟨a, t, rfl⟩
  simp only [standardize_X, Option.map_some']
  rw [Option.some_inj]
  simp only [inverse_standardize_X, rowsSubDiv, List.map_map]
  have hmean := npMean_length x0 xt
  have hstdlen := npStd_length x0 xt
  refine Eq.trans (List.map_congr_left ?_) (List.map_id _)
  intro row hrow
  simp only [Function.comp_apply, id_eq]
  have hrl : row.length = x0.length := hrect row hrow
  exact std_roundtrip_row row (npMean (x0 :: xt)) (npStd (x0 :: xt))
    (by omega) (by omega) hstd

lemma npMean_example : npMean [[1], [3]] = [2] := by
  simp [npMean, transpose, List.range_succ]
  norm_num

lemma npStd_example : npStd [[1], [3]] = [1] := by
  simp [npStd, transpose, List.range_succ]
  norm_num [Real.sqrt_eq_one]

/-- Witness for C5 at `X = [[1],[3]]` (mean `[2]`, standard deviation `[1]`). -/
theorem C5_standardize_roundtrip_witness :
    (standardize_X [[1], [3]] none none).map
      (fun M => inverse_standardize_X M (npMean [[1], [3]]) (npStd [[1], [3]]))
      = some [[1], [3]] :=
  C5_standardize_roundtrip [[1], [3]] (by simp)
    (by intro row hrow; fin_cases hrow <;> simp [ncols])
    (by norm_num [npStd_example])

/-! ## Claim C6: standardize with mixed supplied/omitted statistics -/

/-- C6.  The code computes the per-column statistics only when `X_mean` is
omitted.  At `X = [[1],[3]]`: supplying `X_mean = [2]` while omitting `X_std`
raises (the division `(X - X_mean) / None`), modelled by `none`, instead of
computing the standard deviation `[1]` and returning `[[-1],[1]]`; and
omitting `X_mean` while supplying `X_std = [5]` overwrites the supplied value
with the computed standard deviation `[1]`, returning `[[-1],[1]]` rather
than `[[-1/5],[1/5]]`. -/
theorem C6_standardize_mixed_args_code_bug :
    standardize_X [[1], [3]] (some [2]) none = none ∧
      standardize_X [[1], [3]] none (some [5]) = some [[-1], [1]] ∧
      (some [[-1], [1]] : Option (List (List ℝ))) ≠ some [[-1/5], [1/5]] := by
  refine ⟨rfl, ?_, by norm_num⟩
  simp only [standardize_X, npMean_example, npStd_example, rowsSubDiv]
  norm_num

/-! ## Claims C1 and C2: the log-flagged inverse transform -/

/-- C1.  The log-scale round-trip fails on the code: at `X = [[50]]` with
column range `(0, 100)` (supplied as `[[0],[100]]`) and log flag `[True]`,
the forward transform produces `log10(0.5)` and the inverse transform then
computes `10 ** (0 + 100 * log10(0.5)) = (1/2)^100`, not `50`: the source
exponentiates after the vector inverse transform instead of before it, so
forward-then-inverse does not reproduce the input. -/
theorem C1_log_roundtrip_code_bug :
    (unitscale_X (.arr2d [[50]]) [[0], [100]] [true] none).bind
      (fun M => inverse_unitscale_X (.arr2d M) [[0], [100]] [true] none)
      = some [[(1/2 : ℝ) ^ (100 : ℕ)]] ∧
    ((1/2 : ℝ) ^ (100 : ℕ)) ≠ 50 := by
  constructor
  · simp [unitscale_X, inverse_unitscale_X, unitscale_col, inverse_unitscale_col,
      npAtLeast2d, ncols, transpose, colLoopP, unitscale_xv, inverse_unitscale_xv,
      applyDecimals, setCol, List.range_succ, np_log10, np_exp10]
    have h1 : (50 : ℝ) / 100 = 1 / 2 := by norm_num
    rw [h1, mul_comm, Real.rpow_mul (by norm_num : (0 : ℝ) ≤ 10),
      Real.rpow_logb (by norm_num) (by norm_num) (by norm_num),
      show (100 : ℝ) = ((100 : ℕ) : ℝ) by norm_num, Real.rpow_natCast,
      one_div, inv_pow]
  · have hlt : ((1/2 : ℝ)) ^ (100 : ℕ) < 1 :=
      pow_lt_one₀ (by norm_num) (by norm_num) (by norm_num)
    intro h
    rw [h] at hlt
    norm_num at hlt

/-- C2.  Order of operations in the log branch of `inverse_unitscale_X`: the
source computes `10 ** (inverse_unitscale_xv(xi, range))`, not
`inverse_unitscale_xv(10 ** xi, range)`.  At `X = [[1]]`, range `(0, 2)`
(supplied as `[[0],[2]]`), log flag `[True]`, the code returns
`10 ** (0 + 2*1) = 100`, while the claimed order (exponentiate first, then
vector inverse) gives `0 + 2 * 10**1 = 20`. -/
theorem C2_inverse_log_order_code_bug :
    inverse_unitscale_X (.arr2d [[1]]) [[0], [2]] [true] none = some [[(100 : ℝ)]] ∧
      (100 : ℝ) ≠ 0 + (2 - 0) * np_exp10 1 := by
  constructor
  · simp [inverse_unitscale_X, inverse_unitscale_col, npAtLeast2d, ncols, transpose,
      colLoopP, inverse_unitscale_xv, applyDecimals, setCol, List.range_succ, np_exp10]
    norm_num
  · rw [np_exp10, Real.rpow_one]
    norm_num

/-! ## Claim C7: 2D mesh generation -/

lemma length_linspace01 (n : ℕ) : (linspace01 n).length = n := by
  unfold linspace01
  split
  · simp [*]
  · rw [List.length_map, List.length_range]

lemma sum_map_const {α : Type} (l : List α) (c : ℕ) :
    (l.map (fun _ => c)).sum = l.length * c := by
  induction l with
  | nil => simp
  | cons a t ih =>
    simp only [List.map_cons, List.sum_cons, ih, List.length_cons]
    ring

lemma flatMap_congr_left {α β : Type} (l : List α) (f g : α → List β)
    (h : ∀ a ∈ l, f a = g a) : l.flatMap f = l.flatMap g := by
  induction l with
  | nil => rfl
  | cons a t ih =>
    simp only [List.flatMap_cons]
    rw [h a (by simp), ih (fun b hb => h b (by simp [hb]))]

lemma linspace01_getD_bounds (n k : ℕ) (hk : k < n) :
    0 ≤ (linspace01 n).getD k 0 ∧ (linspace01 n).getD k 0 ≤ 1 := by
  unfold linspace01
  split
  · have hk0 : k = 0 := by omega
    subst hk0
    simp
  · have hn2 : 2 ≤ n := by omega
    rw [getD_map _ _ k 0 0 (by rw [List.length_range]; exact hk)]
    rw [List.getD_eq_getElem _ _ (by rw [List.length_range]; exact hk),
      List.getElem_range]
    have hnr : (1 : ℝ) ≤ (n : ℝ) - 1 := by
      have : (2 : ℝ) ≤ (n : ℝ) := by exact_mod_cast hn2
      linarith
    constructor
    · apply div_nonneg (by positivity)
      linarith
    · rw [div_le_one (by linarith)]
      have : (k : ℝ) + 1 ≤ (n : ℝ) := by exact_mod_cast hk
      linarith

/-- C7 counterexample: at mesh size 2 the flattened coordinate list is
`[[0,0],[1,0],[0,1],[1,1]]` — the inner loop varies the first coordinate
(`x1`) and the outer loop the second (`x2`), because with Cartesian `xy`
indexing `X1[i,j] = x1[j]` and `X2[i,j] = x2[i]`.  The claimed order (outer
loop over the first axis) would give `[[0,0],[0,1],[1,0],[1,1]]`. -/
theorem C7_cex :
    (create_2D_mesh 2).1 = [[0, 0], [1, 0], [0, 1], [1, 1]] ∧
      (create_2D_mesh 2).1 ≠ [[0, 0], [0, 1], [1, 0], [1, 1]] := by
  have h : (create_2D_mesh 2).1 = [[0, 0], [1, 0], [0, 1], [1, 1]] := by
    simp [create_2D_mesh, linspace01, List.range_succ]
    norm_num
  refine ⟨h, ?_⟩
  rw [h]
  norm_num

/-- C7 amended: `create_2D_mesh n` deterministically produces exactly `n*n`
coordinate pairs, each drawn from the `n` evenly spaced `linspace01 n` values
in `[0,1]`, in the fixed row-major order whose OUTER loop varies the second
coordinate (`x2`) and whose inner loop varies the first (`x1`): entry
`i*n + j` is `[linspace01 n !j, linspace01 n !i]`. -/
theorem C7_mesh_amended (n : ℕ) :
    ((create_2D_mesh n).1).length = n * n ∧
    (create_2D_mesh n).1 = (List.range n).flatMap (fun i =>
      (List.range n).map (fun j =>
        [(linspace01 n).getD j 0, (linspace01 n).getD i 0])) ∧
    ∀ p ∈ (create_2D_mesh n).1, ∀ v ∈ p, 0 ≤ v ∧ v ≤ 1 := by
  have hlen := length_linspace01 n
  have horder : (create_2D_mesh n).1 = (List.range n).flatMap (fun i =>
      (List.range n).map (fun j =>
        [(linspace01 n).getD j 0, (linspace01 n).getD i 0])) := by
    simp only [create_2D_mesh]
    refine flatMap_congr_left _ _ _ ?_
    intro i hi
    refine List.map_congr_left ?_
    intro j hj
    have hi2 : i < n := List.mem_range.mp hi
    have hj2 : j < n := List.mem_range.mp hj
    have hX1 : ((linspace01 n).map (fun _ => linspace01 n)).getD i [] = linspace01 n :=
      getD_map _ _ i 0 [] (by omega)
    have hX2 : ((linspace01 n).map (fun v => (linspace01 n).map (fun _ => v))).getD i []
        = (linspace01 n).map (fun _ => (linspace01 n).getD i 0) := by
      rw [getD_map _ _ i 0 [] (by omega)]
    rw [hX1, hX2, getD_map _ _ j 0 0 (by omega)]
  refine ⟨?_, horder, ?_⟩
  · rw [horder, List.length_flatMap]
    have hc : List.map (List.length ∘ fun i => (List.range n).map (fun j =>
        [(linspace01 n).getD j 0, (linspace01 n).getD i 0])) (List.range n)
        = (List.range n).map (fun _ => n) := by
      refine List.map_congr_left ?_
      intro a ha
      simp
    rw [hc, sum_map_const, List.length_range]
  · intro p hp v hv
    rw [horder] at hp
    rcases List.mem_flatMap.mp hp with ⟨i, hi, hp2⟩
    rcases List.mem_map.mp hp2 with ⟨j, hj, rfl⟩
    rcases List.mem_cons.mp hv with rfl | hv2
    · exact linspace01_getD_bounds n j (List.mem_range.mp hj)
    rcases List.mem_cons.mp hv2 with rfl | hv3
    · exact linspace01_getD_bounds n i (List.mem_range.mp hi)
    · cases hv3

/-- Witness for C7 amended, at `n = 2` with the pair `[1, 0]` (which is entry
1 of the mesh) and its coordinate `1`. -/
theorem C7_mesh_witness :
    ((create_2D_mesh 2).1).length = 2 * 2 ∧ (0 ≤ (1 : ℝ) ∧ (1 : ℝ) ≤ 1) := by
  have hmem : ([1, 0] : List ℝ) ∈ (create_2D_mesh 2).1 := by
    simp [create_2D_mesh, linspace01, List.range_succ]
    norm_num
  exact ⟨(C7_mesh_amended 2).1, (C7_mesh_amended 2).2.2 [1, 0] hmem 1 (by simp)⟩

/-! ## Claim C9: purity of the transforms

To state that no transform mutates its inputs we re-embed each function at
the level of an explicit heap of array objects: every argument is a
reference into a `Store`, every numpy expression that produces a new array
is an allocation, and the only in-place write in the whole module — the
column assignment `Xunit[:, i] = ...` — is a `Store.set` aimed at the matrix
freshly allocated by `np.zeros`.  The frame theorem then says that every
cell that existed before the call is unchanged after it and that the result
reference is freshly allocated. -/

/-- A runtime value held in a Python variable: a 1-D float array, a 2-D
float array, or a list of booleans. -/
inductive PyVal where
  | rv : List ℝ → PyVal
  | rm : List (List ℝ) → PyVal
  | bl : List Bool → PyVal

def PyVal.as1d : PyVal → List ℝ
  | .rv v => v
  | _ => []

def PyVal.as2d : PyVal → List (List ℝ)
  | .rm m => m
  | _ => []

def PyVal.asBools : PyVal → List Bool
  | .bl b => b
  | _ => []

/-- The shape dispatch of the matrix transforms, at the heap level. -/
def PyVal.toNpArray : PyVal → NpArray
  | .rv v => .arr1d v
  | .rm m => .arr2d m
  | .bl _ => .arr2d []

/-- A heap of allocated array objects, addressed by allocation index. -/
structure Store where
  cells : List PyVal

def Store.get (σ : Store) (r : ℕ) : PyVal := σ.cells.getD r (.rv [])

def Store.alloc (σ : Store) (v : PyVal) : Store × ℕ :=
  (⟨σ.cells ++ [v]⟩, σ.cells.length)

def Store.set (σ : Store) (r : ℕ) (v : PyVal) : Store := ⟨σ.cells.set r v⟩

lemma Store.length_alloc (σ : Store) (v : PyVal) :
    (σ.alloc v).1.cells.length = σ.cells.length + 1 := by
  simp [Store.alloc]

lemma Store.get_alloc (σ : Store) (v : PyVal) (r : ℕ) (h : r < σ.cells.length) :
    (σ.alloc v).1.get r = σ.get r := by
  dsimp only [Store.alloc, Store.get]
  exact List.getD_append _ _ _ r h

lemma Store.get_set_ne (σ : Store) (z : ℕ) (v : PyVal) (r : ℕ) (h : r ≠ z) :
    (σ.set z v).get r = σ.get r := by
  dsimp only [Store.set, Store.get]
  exact getD_set_ne _ _ _ (Ne.symm h)

lemma Store.length_set (σ : Store) (z : ℕ) (v : PyVal) :
    (σ.set z v).cells.length = σ.cells.length := by
  simp [Store.set]

/-- Heap-level embedding of `unitscale_xv`: `xunit = copy.deepcopy(xv)`
allocates a copy, the bound reads may raise, and
`xunit = (xv - lb)/(rb - lb)` rebinds the local to a freshly allocated
result.  The value computation is shared with the pure embedding
`unitscale_xv`. -/
noncomputable def unitscale_xv_st (σ : Store) (xv xi_range : ℕ) :
    Option (Store × ℕ) :=
  let p := σ.alloc (.rv (σ.get xv).as1d)
  match unitscale_xv (p.1.get xv).as1d (p.1.get xi_range).as1d with
  | none => none
  | some u =>
    let q := p.1.alloc (.rv u)
    some (q.1, q.2)

/-- Heap-level embedding of `inverse_unitscale_xv`; same statement structure
as `unitscale_xv_st`. -/
noncomputable def inverse_unitscale_xv_st (σ : Store) (xv xi_range : ℕ) :
    Option (Store × ℕ) :=
  let p := σ.alloc (.rv (σ.get xv).as1d)
  match inverse_unitscale_xv (p.1.get xv).as1d (p.1.get xi_range).as1d with
  | none => none
  | some u =>
    let q := p.1.alloc (.rv u)
    some (q.1, q.2)

/-- The column loop at the heap level: each iteration computes the column
value and writes it into the matrix at reference `zr` (the numpy column
assignment `Xunit[:, i] = ...`, an in-place `Store.set`). -/
noncomputable def colLoopSt (g : ℕ → Option (List ℝ)) (zr : ℕ) :
    List ℕ → Store → Option Store
  | [], σ => some σ
  | i :: is, σ =>
    match g i with
    | none => none
    | some u => colLoopSt g zr is (σ.set zr (.rm (setCol (σ.get zr).as2d i u)))

/-- Common tail of the two heap-level matrix transforms: allocate the
`np.zeros` matrix, run the column loop writing into it, and optionally
allocate the rounded copy produced by `np.around`. -/
noncomputable def loopSt_result (g : ℕ → Option (List ℝ)) (σ : Store)
    (zeros : List (List ℝ)) (l : List ℕ) (dec : Option ℤ) : Option (Store × ℕ) :=
  let p := σ.alloc (.rm zeros)
  match colLoopSt g p.2 l p.1 with
  | none => none
  | some σ2 =>
    match dec with
    | none => some (σ2, p.2)
    | some d =>
      let q := σ2.alloc (.rm ((σ2.get p.2).as2d.map (List.map (np_around d))))
      some (q.1, q.2)

/-- Heap-level embedding of `unitscale_X`: all reads are through references,
the per-column values are computed by the same `unitscale_col` as the pure
embedding, and the only write targets the freshly allocated zero matrix. -/
noncomputable def unitscale_X_st (σ : Store) (X X_range log_flags : ℕ)
    (decimals : Option ℤ) : Option (Store × ℕ) :=
  let X2 := npAtLeast2d (σ.get X).toNpArray
  let dim := ncols X2
  let Xr := match (σ.get X_range).as2d with
    | [] => List.replicate dim ([0, 1] : List ℝ)
    | xr => transpose xr
  let lfv := (σ.get log_flags).asBools
  let lf := match lfv with
    | [] => List.replicate dim false
    | _ => lfv
  let cols := transpose X2
  loopSt_result (unitscale_col lf Xr cols) σ
    (List.replicate X2.length (List.replicate dim (0 : ℝ)))
    (List.range cols.length) decimals

/-- Heap-level embedding of `inverse_unitscale_X`; mirrors `unitscale_X_st`
with `inverse_unitscale_col`. -/
noncomputable def inverse_unitscale_X_st (σ : Store) (X X_range log_flags : ℕ)
    (decimals : Option ℤ) : Option (Store × ℕ) :=
  let X2 := npAtLeast2d (σ.get X).toNpArray
  let dim := ncols X2
  let Xr := match (σ.get X_range).as2d with
    | [] => List.replicate dim ([0, 1] : List ℝ)
    | xr => transpose xr
  let lfv := (σ.get log_flags).asBools
  let lf := match lfv with
    | [] => List.replicate dim false
    | _ => lfv
  let cols := transpose X2
  loopSt_result (inverse_unitscale_col lf Xr cols) σ
    (List.replicate X2.length (List.replicate dim (0 : ℝ)))
    (List.range cols.length) decimals

/-- Heap-level embedding of `standardize_X`: the optional statistics are
references when supplied; the only allocation is the fresh result
`(X - mean) / std`; nothing is written in place. -/
noncomputable def standardize_X_st (σ : Store) (X : ℕ) (X_mean X_std : Option ℕ) :
    Option (Store × ℕ) :=
  let Xv := (σ.get X).as2d
  let ms : List ℝ × Option (List ℝ) :=
    match X_mean with
    | none => (npMean Xv, some (npStd Xv))
    | some mr => ((σ.get mr).as1d, X_std.map (fun sr => (σ.get sr).as1d))
  match ms.2 with
  | none => none
  | some s =>
    let q := σ.alloc (.rm (rowsSubDiv Xv ms.1 s))
    some (q.1, q.2)

/-- Heap-level embedding of `inverse_standardize_X`: reads its three
arguments and allocates the fresh result `X * std + mean`. -/
noncomputable def inverse_standardize_X_st (σ : Store) (X X_mean X_std : ℕ) :
    Store × ℕ :=
  σ.alloc (.rm (inverse_standardize_X (σ.get X).as2d (σ.get X_mean).as1d
    (σ.get X_std).as1d))

lemma colLoopSt_frame {g : ℕ → Option (List ℝ)} (zr : ℕ) (l : List ℕ)
    (σ σ2 : Store) (h : colLoopSt g zr l σ = some σ2) :
    σ2.cells.length = σ.cells.length ∧ ∀ r, r ≠ zr → σ2.get r = σ.get r := by
  induction l generalizing σ with
  | nil =>
    simp only [colLoopSt] at h
    cases h
    exact ⟨rfl, fun _ _ => rfl⟩
  | cons i is ih =>
    simp only [colLoopSt] at h
    cases hgi : g i with
    | none => rw [hgi] at h; cases h
    | some u =>
      rw [hgi] at h
      have step := ih _ h
      refine ⟨by rw [step.1, Store.length_set], ?_⟩
      intro r hr
      rw [step.2 r hr, Store.get_set_ne _ _ _ _ hr]

lemma loopSt_result_frame (g : ℕ → Option (List ℝ)) (σ : Store)
    (zeros : List (List ℝ)) (l : List ℕ) (dec : Option ℤ) (σr : Store) (rr : ℕ)
    (h : loopSt_result g σ zeros l dec = some (σr, rr)) :
    (∀ r < σ.cells.length, σr.get r = σ.get r) ∧ σ.cells.length ≤ rr := by
  simp only [loopSt_result] at h
  cases hc : colLoopSt g (σ.alloc (.rm zeros)).2 l (σ.alloc (.rm zeros)).1 with
  | none => rw [hc] at h; cases h
  | some σ2 =>
    rw [hc] at h
    have hframe := colLoopSt_frame _ _ _ _ hc
    cases dec with
    | none =>
      simp only [Option.some.injEq, Prod.mk.injEq] at h
      obtain ⟨rfl, rfl⟩ := h
      constructor
      · intro r hr
        rw [hframe.2 r (by simp only [Store.alloc]; omega),
          Store.get_alloc _ _ _ hr]
      · simp [Store.alloc]
    | some d =>
      simp only [Option.some.injEq, Prod.mk.injEq] at h
      obtain ⟨rfl, rfl⟩ := h
      have hlen2 : σ2.cells.length = σ.cells.length + 1 := by
        rw [hframe.1, Store.length_alloc]
      constructor
      · intro r hr
        rw [Store.get_alloc _ _ _ (by omega),
          hframe.2 r (by simp only [Store.alloc]; omega),
          Store.get_alloc _ _ _ hr]
      · simp only [Store.alloc]
        omega

/-- C9. Purity / no input mutation: at the heap level, each of the six
transforms leaves every previously allocated cell — in particular every
input argument — unchanged, and returns a freshly allocated result
(reference at or above the pre-call heap size). -/
theorem C9_purity :
    (∀ (σ : Store) (xv rng : ℕ) (σr : Store) (rr : ℕ),
        unitscale_xv_st σ xv rng = some (σr, rr) →
        (∀ r < σ.cells.length, σr.get r = σ.get r) ∧ σ.cells.length ≤ rr) ∧
    (∀ (σ : Store) (xv rng : ℕ) (σr : Store) (rr : ℕ),
        inverse_unitscale_xv_st σ xv rng = some (σr, rr) →
        (∀ r < σ.cells.length, σr.get r = σ.get r) ∧ σ.cells.length ≤ rr) ∧
    (∀ (σ : Store) (X Xrange lflags : ℕ) (dec : Option ℤ) (σr : Store) (rr : ℕ),
        unitscale_X_st σ X Xrange lflags dec = some (σr, rr) →
        (∀ r < σ.cells.length, σr.get r = σ.get r) ∧ σ.cells.length ≤ rr) ∧
    (∀ (σ : Store) (X Xrange lflags : ℕ) (dec : Option ℤ) (σr : Store) (rr : ℕ),
        inverse_unitscale_X_st σ X Xrange lflags dec = some (σr, rr) →
        (∀ r < σ.cells.length, σr.get r = σ.get r) ∧ σ.cells.length ≤ rr) ∧
    (∀ (σ : Store) (X : ℕ) (m s : Option ℕ) (σr : Store) (rr : ℕ),
        standardize_X_st σ X m s = some (σr, rr) →
        (∀ r < σ.cells.length, σr.get r = σ.get r) ∧ σ.cells.length ≤ rr) ∧
    (∀ (σ : Store) (X m s : ℕ),
        (∀ r < σ.cells.length,
          (inverse_standardize_X_st σ X m s).1.get r = σ.get r) ∧
          σ.cells.length ≤ (inverse_standardize_X_st σ X m s).2) := by
  refine ⟨?_, ?_, ?_, ?_, ?_, ?_⟩
  · intro σ xv rng σr rr h
    simp only [unitscale_xv_st] at h
    cases hu : unitscale_xv ((σ.alloc (.rv (σ.get xv).as1d)).1.get xv).as1d
        ((σ.alloc (.rv (σ.get xv).as1d)).1.get rng).as1d with
    | none => rw [hu] at h; cases h
    | some u =>
      rw [hu] at h
      simp only [Option.some.injEq, Prod.mk.injEq] at h
      obtain ⟨rfl, rfl⟩ := h
      constructor
      · intro r hr
        rw [Store.get_alloc _ _ _ (by rw [Store.length_alloc]; omega),
          Store.get_alloc _ _ _ hr]
      · simp only [Store.alloc, List.length_append]
        omega
  · intro σ xv rng σr rr h
    simp only [inverse_unitscale_xv_st] at h
    cases hu : inverse_unitscale_xv ((σ.alloc (.rv (σ.get xv).as1d)).1.get xv).as1d
        ((σ.alloc (.rv (σ.get xv).as1d)).1.get rng).as1d with
    | none => rw [hu] at h; cases h
    | some u =>
      rw [hu] at h
      simp only [Option.some.injEq, Prod.mk.injEq] at h
      obtain ⟨rfl, rfl⟩ := h
      constructor
      · intro r hr
        rw [Store.get_alloc _ _ _ (by rw [Store.length_alloc]; omega),
          Store.get_alloc _ _ _ hr]
      · simp only [Store.alloc, List.length_append]
        omega
  · intro σ X Xrange lflags dec σr rr h
    exact loopSt_result_frame _ _ _ _ _ _ _ h
  · intro σ X Xrange lflags dec σr rr h
    exact loopSt_result_frame _ _ _ _ _ _ _ h
  · intro σ X m s σr rr h
    simp only [standardize_X_st] at h
    cases m with
    | none =>
      simp only [Option.some.injEq, Prod.mk.injEq] at h
      obtain ⟨rfl, rfl⟩ := h
      exact ⟨fun r hr => Store.get_alloc _ _ _ hr, by simp [Store.alloc]⟩
    | some mr =>
      cases s with
      | none => cases h
      | some sr =>
        simp only [Option.some.injEq, Prod.mk.injEq] at h
        obtain ⟨rfl, rfl⟩ := h
        exact ⟨fun r hr => Store.get_alloc _ _ _ hr, by simp [Store.alloc]⟩
  · intro σ X m s
    exact ⟨fun r hr => Store.get_alloc _ _ _ hr,
      by simp [inverse_standardize_X_st, Store.alloc]⟩

/-- Witness for C9: the vector forward transform run on a two-cell heap
(`xv` at cell 0, range at cell 1) leaves cell 0 unchanged and returns the
fresh reference 3. -/
theorem C9_purity_witness :
    (Store.mk [PyVal.rv [1, 2], PyVal.rv [0, 1], PyVal.rv [1, 2],
        PyVal.rv [1, 2]]).get 0
      = (Store.mk [PyVal.rv [1, 2], PyVal.rv [0, 1]]).get 0 ∧
    (Store.mk [PyVal.rv [1, 2], PyVal.rv [0, 1]]).cells.length ≤ 3 := by
  have h := C9_purity.1 (Store.mk [PyVal.rv [1, 2], PyVal.rv [0, 1]]) 0 1
    (Store.mk [PyVal.rv [1, 2], PyVal.rv [0, 1], PyVal.rv [1, 2], PyVal.rv [1, 2]]) 3
    (by
      simp only [unitscale_xv_st, Store.alloc, Store.get, PyVal.as1d, unitscale_xv]
      norm_num)
  exact ⟨h.1 0 (by norm_num), h.2⟩
